import Mathlib

/-!
Verification of the Mandelbrot viewer core (`src/main.rs`).

The numeric kernel of the program works on `f64`; this development embeds it
with exact rational arithmetic (`ℚ`), the idealisation of the source's
floating-point expressions: every constant appearing in the source
(`0.5`, `0.05`, `2.0`, `3.0`, `255.0`) is exactly representable, and the
algebraic shape of every expression is kept.  The magnitude test
`z.norm() < 2.0` is embedded as `normSq z < 4`, its square, which is
equivalent over the reals and keeps the development inside `ℚ`.
`u32` arithmetic that can wrap (`width * height`) is embedded with an
explicit reduction modulo `2 ^ 32`.
-/

namespace Mandel

/-- Embedding of `num::complex::Complex<f64>`: a pair of (idealised) reals. -/
structure Complexq where
  re : ℚ
  im : ℚ
deriving DecidableEq, Repr

/-- Complex addition (componentwise, as in the `num` crate). -/
def cadd (a b : Complexq) : Complexq :=
  ⟨a.re + b.re, a.im + b.im⟩

/-- Complex multiplication, as in the `num` crate. -/
def cmul (a b : Complexq) : Complexq :=
  ⟨a.re * b.re - a.im * b.im, a.re * b.im + a.im * b.re⟩

/-- Squared magnitude.  The source compares `z.norm() < 2.0`; over the reals
this is equivalent to `normSq z < 4`, which is what the embedding tests. -/
def normSq (z : Complexq) : ℚ :=
  z.re * z.re + z.im * z.im

/-- One loop body of `iterate_mandelbrot_point`: `z = z * z + c`. -/
def mandelStep (c z : Complexq) : Complexq :=
  cadd (cmul z z) c

/-- The orbit of the escape-time loop: `zSeq c n` is the value of `z` after
`n` executed loop bodies (`z_0 = 0`, `z_{n+1} = z_n^2 + c`). -/
def zSeq (c : Complexq) : ℕ → Complexq
  | 0 => ⟨0, 0⟩
  | n + 1 => mandelStep c (zSeq c n)

/-- The iteration count of the `while` loop of `iterate_mandelbrot_point`,
by fuel: with `fuel` remaining allowed iterations and current value `z`,
count how many consecutive loop bodies run (`while i < max_iterations &&
z.norm() < 2.0`). -/
def iterCountAux (c : Complexq) : ℕ → Complexq → ℕ
  | 0, _ => 0
  | fuel + 1, z =>
    if normSq z < 4 then iterCountAux c fuel (mandelStep c z) + 1 else 0

/-- The final value of `i` in `iterate_mandelbrot_point`. -/
def iterCount (c : Complexq) (maxIterations : ℕ) : ℕ :=
  iterCountAux c maxIterations ⟨0, 0⟩

/-- Embedding of `iterate_mandelbrot_point` (src/main.rs:19-27): run the
escape-time loop, then return `(i as f64) / (max_iterations as f64)`. -/
def iterate_mandelbrot_point (c : Complexq) (maxIterations : ℕ) : ℚ :=
  (iterCount c maxIterations : ℚ) / (maxIterations : ℚ)

/-- `u32` multiplication: Rust release builds wrap on overflow. -/
def u32mul (a b : ℕ) : ℕ :=
  (a * b) % 2 ^ 32

/-- Embedding of `struct Mandelbrot` (src/main.rs:133-142).  The `u32`
fields are naturals, the `f64` fields idealised reals, and `cache: Vec<f64>`
a list. -/
structure Mandelbrot where
  max_iterations : ℕ
  zoom : ℚ
  offset : Complexq
  width : ℕ
  height : ℕ
  cache : List ℚ
  changed : Bool
  resized : Bool
deriving DecidableEq, Repr

/-- Embedding of `Mandelbrot::new` (src/main.rs:145-156). -/
def Mandelbrot.new (maxIterations width height : ℕ) : Mandelbrot :=
  { max_iterations := maxIterations
    zoom := 3
    offset := ⟨-(1/2 : ℚ), 0⟩
    width := width
    height := height
    cache := []
    changed := true
    resized := true }

/-- Embedding of `Mandelbrot::update` (src/main.rs:174-191): if `resized`,
clear the cache and resize it to `width * height` zeros and clear `resized`;
then overwrite the cache with the escape-time ratio of every pixel index
`i` in `0 .. width * height` (row-major: `x = i % width`, `y = i / width`),
mapped through the coordinate transform, and clear `changed`.
`collect_into_vec` replaces the vector's contents with the mapped range. -/
def Mandelbrot.update (m : Mandelbrot) : Mandelbrot :=
  let ratio : ℚ := (m.width : ℚ) / (m.height : ℚ)
  let m1 : Mandelbrot :=
    if m.resized then
      { m with cache := List.replicate (u32mul m.width m.height) 0, resized := false }
    else m
  { m1 with
    cache :=
      (List.range (u32mul m1.width m1.height)).map (fun i =>
        let x := i % m1.width
        let y := i / m1.width
        let c : Complexq :=
          ⟨((x : ℚ) / (m1.width : ℚ) - 0.5) * ratio * m1.zoom + m1.offset.re,
           ((y : ℚ) / (m1.height : ℚ) - 0.5) * m1.zoom + m1.offset.im⟩
        iterate_mandelbrot_point c m1.max_iterations)
    changed := false }

/-- Embedding of the cast `(colour_slider * 255.0) as u8` (src/main.rs:166):
an `f64`-to-`u8` `as` cast truncates toward zero and saturates to `0..255`.
For a non-negative argument this is `⌊r * 255⌋` clamped above at `255`
(a negative argument lands at `0`, as both truncation-then-saturation and
this formula give `0`). -/
def toByte (r : ℚ) : ℕ :=
  min 255 (Int.toNat ⌊r * 255⌋)

/-- One iteration of the rasterization loop of `Mandelbrot::draw`
(src/main.rs:161-172): chunk `i` of the screen gets the RGBA bytes of the
cached ratio at index `x + y * width`.  `none` embeds a Rust panic: the
remainder `i % width` with `width = 0`, or a cache index out of bounds. -/
def Mandelbrot.rasterizeChunk (m : Mandelbrot) (i : ℕ) : Option (List ℕ) :=
  if m.width = 0 then none
  else
    let x := i % m.width
    let y := i / m.width
    match m.cache[x + y * m.width]? with
    | some colour_slider =>
      some [toByte colour_slider, toByte colour_slider, toByte colour_slider, 255]
    | none => none

/-- The whole rasterization loop: the bytes written over the
`screen.len() / 4` exact chunks, in order; `none` if any iteration panics. -/
def Mandelbrot.rasterize (m : Mandelbrot) (nchunks : ℕ) : Option (List ℕ) :=
  ((List.range nchunks).mapM m.rasterizeChunk).map List.flatten

/-- Embedding of `Mandelbrot::draw` (src/main.rs:157-173): recompute the
cache when `changed`, then rasterize every 4-byte chunk of the screen
(`chunks_exact_mut(4)` leaves a remainder shorter than 4 untouched).
Returns the state after the call and the screen contents (or `none` for a
panic). -/
def Mandelbrot.draw (m : Mandelbrot) (screen : List ℕ) : Mandelbrot × Option (List ℕ) :=
  let m1 := if m.changed then m.update else m
  (m1, (m1.rasterize (screen.length / 4)).map
    (fun bytes => bytes ++ screen.drop (4 * (screen.length / 4))))

/-- The pan-right input handler (`D`, src/main.rs:88-91). -/
def Mandelbrot.pan_right (m : Mandelbrot) : Mandelbrot :=
  { m with offset := ⟨m.offset.re + 0.05 * m.zoom, m.offset.im⟩, changed := true }

/-- The pan-left input handler (`A`, src/main.rs:78-81). -/
def Mandelbrot.pan_left (m : Mandelbrot) : Mandelbrot :=
  { m with offset := ⟨m.offset.re - 0.05 * m.zoom, m.offset.im⟩, changed := true }

/-- The zoom-in input handler (`R`, src/main.rs:94-97): `zoom /= 2.0`. -/
def Mandelbrot.zoom_in (m : Mandelbrot) : Mandelbrot :=
  { m with zoom := m.zoom / 2, changed := true }

/-- The zoom-out input handler (`F`, src/main.rs:98-101): `zoom *= 2.0`. -/
def Mandelbrot.zoom_out (m : Mandelbrot) : Mandelbrot :=
  { m with zoom := m.zoom * 2, changed := true }

/-- The window-resize handler (src/main.rs:104-111): set the new dimensions
and both dirty flags. -/
def Mandelbrot.resize (m : Mandelbrot) (w h : ℕ) : Mandelbrot :=
  { m with width := w, height := h, changed := true, resized := true }

/-- A concrete 1×1 state with a clean cache, used to instantiate theorems:
its single cached ratio `1/100` is the escape-time ratio of the point
`2 + 0i` at the bound 100 (the orbit escapes after one iteration). -/
def tinyClean : Mandelbrot :=
  { max_iterations := 100
    zoom := 3
    offset := ⟨-(1/2 : ℚ), 0⟩
    width := 1
    height := 1
    cache := [1/100]
    changed := false
    resized := false }

lemma iterCountAux_le (c : Complexq) : ∀ fuel z, iterCountAux c fuel z ≤ fuel := by
  intro fuel
  induction fuel with
  | zero => intro z; simp [iterCountAux]
  | succ n ih =>
    intro z
    simp only [iterCountAux]
    split
    · exact Nat.succ_le_succ (ih _)
    · exact Nat.zero_le _

/-- Characterisation of the loop count, along the orbit shifted by `m`:
every check before the count passed, and if the loop stopped early the
check at the stopping point failed. -/
lemma iterCountAux_spec (c : Complexq) : ∀ fuel m,
    (∀ k < iterCountAux c fuel (zSeq c m), normSq (zSeq c (m + k)) < 4) ∧
    (iterCountAux c fuel (zSeq c m) < fuel →
      ¬ normSq (zSeq c (m + iterCountAux c fuel (zSeq c m))) < 4) := by
  intro fuel
  induction fuel with
  | zero =>
    intro m
    refine ⟨fun k hk => absurd hk (by simp [iterCountAux]), ?_⟩
    simp [iterCountAux]
  | succ n ih =>
    intro m
    by_cases h : normSq (zSeq c m) < 4
    · have hstep : iterCountAux c (n + 1) (zSeq c m)
          = iterCountAux c n (zSeq c (m + 1)) + 1 := by
        simp [iterCountAux, h, zSeq]
      obtain ⟨ih1, ih2⟩ := ih (m + 1)
      constructor
      · intro k hk
        rw [hstep] at hk
        match k with
        | 0 => simpa using h
        | j + 1 =>
          have hj : j < iterCountAux c n (zSeq c (m + 1)) := by omega
          have := ih1 j hj
          have harith : m + 1 + j = m + (j + 1) := by omega
          rwa [harith] at this
      · intro hlt
        rw [hstep] at hlt ⊢
        have hlt' : iterCountAux c n (zSeq c (m + 1)) < n := by omega
        have := ih2 hlt'
        have harith : m + 1 + iterCountAux c n (zSeq c (m + 1))
            = m + (iterCountAux c n (zSeq c (m + 1)) + 1) := by omega
        rwa [harith] at this
    · have hstep : iterCountAux c (n + 1) (zSeq c m) = 0 := by
        simp [iterCountAux, h]
      refine ⟨fun k hk => absurd hk (by simp [hstep]), ?_⟩
      intro _
      simpa [hstep] using h

lemma update_max_iterations (m : Mandelbrot) : m.update.max_iterations = m.max_iterations := by
  by_cases h : m.resized <;> simp [Mandelbrot.update, h]

lemma update_zoom (m : Mandelbrot) : m.update.zoom = m.zoom := by
  by_cases h : m.resized <;> simp [Mandelbrot.update, h]

lemma update_offset (m : Mandelbrot) : m.update.offset = m.offset := by
  by_cases h : m.resized <;> simp [Mandelbrot.update, h]

lemma update_width (m : Mandelbrot) : m.update.width = m.width := by
  by_cases h : m.resized <;> simp [Mandelbrot.update, h]

lemma update_height (m : Mandelbrot) : m.update.height = m.height := by
  by_cases h : m.resized <;> simp [Mandelbrot.update, h]

lemma update_changed (m : Mandelbrot) : m.update.changed = false := by
  by_cases h : m.resized <;> simp [Mandelbrot.update, h]

lemma update_resized (m : Mandelbrot) : m.update.resized = false := by
  by_cases h : m.resized <;> simp [Mandelbrot.update, h]

/-- The cache written by `update`, as a map over the row-major pixel range. -/
lemma update_cache (m : Mandelbrot) :
    m.update.cache = (List.range (u32mul m.width m.height)).map (fun i =>
      iterate_mandelbrot_point
        ⟨(((i % m.width : ℕ) : ℚ) / (m.width : ℚ) - 0.5) * ((m.width : ℚ) / (m.height : ℚ)) * m.zoom + m.offset.re,
         (((i / m.width : ℕ) : ℚ) / (m.height : ℚ) - 0.5) * m.zoom + m.offset.im⟩
        m.max_iterations) := by
  by_cases h : m.resized <;> simp [Mandelbrot.update, h]

/-- C1: `iterate_mandelbrot_point` returns `i / max_iterations` where `i`
is the count of loop bodies executed while `i < max_iterations` and the
magnitude check `|z| < 2` (embedded as `normSq z < 4`) holds along the
orbit `z_0 = 0`, `z_{n+1} = z_n^2 + c`; for `max_iterations > 0` the ratio
lies in `[0, 1]` and equals `1` exactly when all `max_iterations` checks
passed (the point never escaped within the bound). -/
theorem iterate_mandelbrot_point_spec (c : Complexq) (maxIterations : ℕ)
    (hpos : 0 < maxIterations) :
    iterate_mandelbrot_point c maxIterations
      = (iterCount c maxIterations : ℚ) / (maxIterations : ℚ) ∧
    iterCount c maxIterations ≤ maxIterations ∧
    (∀ k < iterCount c maxIterations, normSq (zSeq c k) < 4) ∧
    (iterCount c maxIterations < maxIterations →
      ¬ normSq (zSeq c (iterCount c maxIterations)) < 4) ∧
    0 ≤ iterate_mandelbrot_point c maxIterations ∧
    iterate_mandelbrot_point c maxIterations ≤ 1 ∧
    (iterate_mandelbrot_point c maxIterations = 1 ↔
      ∀ n < maxIterations, normSq (zSeq c n) < 4) := by
  have hle : iterCount c maxIterations ≤ maxIterations := iterCountAux_le c _ _
  have hspec := iterCountAux_spec c maxIterations 0
  simp only [zero_add] at hspec
  have hforall : ∀ k < iterCount c maxIterations, normSq (zSeq c k) < 4 := hspec.1
  have hstop : iterCount c maxIterations < maxIterations →
      ¬ normSq (zSeq c (iterCount c maxIterations)) < 4 := hspec.2
  have hb : ((maxIterations : ℚ)) ≠ 0 := by
    exact_mod_cast Nat.pos_iff_ne_zero.mp hpos
  have hbpos : (0 : ℚ) < (maxIterations : ℚ) := by exact_mod_cast hpos
  refine ⟨rfl, hle, hforall, hstop, ?_, ?_, ?_⟩
  · exact div_nonneg (by positivity) (le_of_lt hbpos)
  · rw [iterate_mandelbrot_point, div_le_one hbpos]
    exact_mod_cast hle
  · rw [iterate_mandelbrot_point, div_eq_one_iff_eq hb]
    constructor
    · intro heq n hn
      have hcnt : iterCount c maxIterations = maxIterations := by exact_mod_cast heq
      exact hforall n (by omega)
    · intro hall
      by_contra hne
      have hlt : iterCount c maxIterations < maxIterations := by
        rcases lt_or_eq_of_le hle with h | h
        · exact h
        · exact absurd (by exact_mod_cast h) hne
      exact hstop hlt (hall _ hlt)

/-- Witness for C1 at `c = 2 + 0i`, `max_iterations = 5`: the orbit escapes
after one iteration, the ratio is `1/5`. -/
theorem iterate_mandelbrot_point_spec_witness :
    0 < 5 ∧
    (iterate_mandelbrot_point ⟨2, 0⟩ 5 = (iterCount ⟨2, 0⟩ 5 : ℚ) / (5 : ℚ) ∧
    iterCount ⟨2, 0⟩ 5 ≤ 5 ∧
    (∀ k < iterCount ⟨2, 0⟩ 5, normSq (zSeq ⟨2, 0⟩ k) < 4) ∧
    (iterCount ⟨2, 0⟩ 5 < 5 → ¬ normSq (zSeq ⟨2, 0⟩ (iterCount ⟨2, 0⟩ 5)) < 4) ∧
    0 ≤ iterate_mandelbrot_point ⟨2, 0⟩ 5 ∧
    iterate_mandelbrot_point ⟨2, 0⟩ 5 ≤ 1 ∧
    (iterate_mandelbrot_point ⟨2, 0⟩ 5 = 1 ↔ ∀ n < 5, normSq (zSeq ⟨2, 0⟩ n) < 4)) :=
  ⟨by norm_num, iterate_mandelbrot_point_spec ⟨2, 0⟩ 5 (by norm_num)⟩

lemma index_lt_of_lt (x y w h : ℕ) (hx : x < w) (hy : y < h) : x + y * w < w * h := by
  calc x + y * w < w + y * w := by omega
    _ = (y + 1) * w := by ring
    _ ≤ h * w := Nat.mul_le_mul_right _ (by omega)
    _ = w * h := Nat.mul_comm _ _

/-- C2: the recompute step stores, at cache index `x + y * width` (row-major),
the escape-time ratio of the fractal-plane point
`re = (x/width - 0.5) * (width/height) * zoom + offset.re`,
`im = (y/height - 0.5) * zoom + offset.im`; in particular pixel `(0, 0)`
maps to `(-aspect_ratio * zoom / 2 + offset.re, -zoom / 2 + offset.im)`. -/
theorem update_pixel_mapping (m : Mandelbrot) (x y : ℕ)
    (hw : 0 < m.width) (hh : 0 < m.height)
    (hmul : m.width * m.height < 2 ^ 32)
    (hx : x < m.width) (hy : y < m.height) :
    m.update.cache[x + y * m.width]?
      = some (iterate_mandelbrot_point
          ⟨((x : ℚ) / (m.width : ℚ) - 0.5) * ((m.width : ℚ) / (m.height : ℚ)) * m.zoom + m.offset.re,
           ((y : ℚ) / (m.height : ℚ) - 0.5) * m.zoom + m.offset.im⟩
          m.max_iterations) ∧
    m.update.cache[(0 : ℕ)]?
      = some (iterate_mandelbrot_point
          ⟨-(((m.width : ℚ) / (m.height : ℚ)) * m.zoom) / 2 + m.offset.re,
           -m.zoom / 2 + m.offset.im⟩
          m.max_iterations) := by
  have hmod : u32mul m.width m.height = m.width * m.height :=
    Nat.mod_eq_of_lt hmul
  have hmain : ∀ x' y', x' < m.width → y' < m.height →
      m.update.cache[x' + y' * m.width]?
        = some (iterate_mandelbrot_point
            ⟨((x' : ℚ) / (m.width : ℚ) - 0.5) * ((m.width : ℚ) / (m.height : ℚ)) * m.zoom + m.offset.re,
             ((y' : ℚ) / (m.height : ℚ) - 0.5) * m.zoom + m.offset.im⟩
            m.max_iterations) := by
    intro x' y' hx' hy'
    have hidx : x' + y' * m.width < u32mul m.width m.height := by
      rw [hmod]; exact index_lt_of_lt x' y' m.width m.height hx' hy'
    have hxmod : (x' + y' * m.width) % m.width = x' := by
      rw [Nat.add_mul_mod_self_right, Nat.mod_eq_of_lt hx']
    have hydiv : (x' + y' * m.width) / m.width = y' := by
      rw [Nat.add_mul_div_right _ _ hw, Nat.div_eq_of_lt hx', Nat.zero_add]
    rw [update_cache, List.getElem?_map, List.getElem?_range hidx, Option.map_some',
      hxmod, hydiv]
  refine ⟨hmain x y hx hy, ?_⟩
  have h0 := hmain 0 0 hw hh
  simp only [Nat.zero_mul, Nat.add_zero, Nat.cast_zero] at h0
  rw [h0]
  congr 3
  · ring
  · ring

/-- Witness for C2 at a concrete state (width 2, height 2, the defaults of
`Mandelbrot::new`) and pixel `(1, 1)`. -/
theorem update_pixel_mapping_witness :
    (0 < (Mandelbrot.new 5 2 2).width ∧ 0 < (Mandelbrot.new 5 2 2).height ∧
     (Mandelbrot.new 5 2 2).width * (Mandelbrot.new 5 2 2).height < 2 ^ 32 ∧
     1 < (Mandelbrot.new 5 2 2).width ∧ 1 < (Mandelbrot.new 5 2 2).height) ∧
    ((Mandelbrot.new 5 2 2).update.cache[1 + 1 * (Mandelbrot.new 5 2 2).width]?
      = some (iterate_mandelbrot_point
          ⟨((1 : ℚ) / ((Mandelbrot.new 5 2 2).width : ℚ) - 0.5)
              * (((Mandelbrot.new 5 2 2).width : ℚ) / ((Mandelbrot.new 5 2 2).height : ℚ))
              * (Mandelbrot.new 5 2 2).zoom + (Mandelbrot.new 5 2 2).offset.re,
           ((1 : ℚ) / ((Mandelbrot.new 5 2 2).height : ℚ) - 0.5)
              * (Mandelbrot.new 5 2 2).zoom + (Mandelbrot.new 5 2 2).offset.im⟩
          (Mandelbrot.new 5 2 2).max_iterations) ∧
    (Mandelbrot.new 5 2 2).update.cache[(0 : ℕ)]?
      = some (iterate_mandelbrot_point
          ⟨-((((Mandelbrot.new 5 2 2).width : ℚ) / ((Mandelbrot.new 5 2 2).height : ℚ))
              * (Mandelbrot.new 5 2 2).zoom) / 2 + (Mandelbrot.new 5 2 2).offset.re,
           -(Mandelbrot.new 5 2 2).zoom / 2 + (Mandelbrot.new 5 2 2).offset.im⟩
          (Mandelbrot.new 5 2 2).max_iterations)) :=
  ⟨⟨by norm_num [Mandelbrot.new], by norm_num [Mandelbrot.new],
    by norm_num [Mandelbrot.new], by norm_num [Mandelbrot.new],
    by norm_num [Mandelbrot.new]⟩,
   update_pixel_mapping (Mandelbrot.new 5 2 2) 1 1
     (by norm_num [Mandelbrot.new]) (by norm_num [Mandelbrot.new])
     (by norm_num [Mandelbrot.new]) (by norm_num [Mandelbrot.new])
     (by norm_num [Mandelbrot.new])⟩

/-- C4: `draw` recomputes the cache exactly when `changed` is true at entry
(otherwise the state is untouched); a recompute leaves both `changed` and
`resized` false; and the rasterization of the (possibly recomputed) cache
into the output buffer happens on every call, recompute or not. -/
theorem draw_recompute_policy (m : Mandelbrot) (screen : List ℕ) :
    (m.draw screen).1 = (if m.changed then m.update else m) ∧
    (m.changed = true → (m.draw screen).1 = m.update) ∧
    (m.changed = false → (m.draw screen).1 = m) ∧
    m.update.changed = false ∧
    m.update.resized = false ∧
    (m.draw screen).2 = ((m.draw screen).1.rasterize (screen.length / 4)).map
      (fun bytes => bytes ++ screen.drop (4 * (screen.length / 4))) := by
  refine ⟨rfl, ?_, ?_, update_changed m, update_resized m, rfl⟩
  · intro h; simp [Mandelbrot.draw, h]
  · intro h; simp [Mandelbrot.draw, h]

/-- C7: `zoom_in` (`zoom /= 2.0`) followed by `zoom_out` (`zoom *= 2.0`)
restores the `zoom` field exactly. -/
theorem zoom_in_zoom_out_exact (m : Mandelbrot) :
    m.zoom_in.zoom_out.zoom = m.zoom := by
  simp only [Mandelbrot.zoom_in, Mandelbrot.zoom_out]
  ring

/-- C8: pan-right (`offset.re += 0.05 * zoom`) followed by pan-left
(`offset.re -= 0.05 * zoom`), with no intervening zoom change, restores
`offset` exactly. -/
theorem pan_right_pan_left_exact (m : Mandelbrot) :
    m.pan_right.pan_left.offset = m.offset := by
  simp only [Mandelbrot.pan_right, Mandelbrot.pan_left]
  have h : m.offset.re + 0.05 * m.zoom - 0.05 * m.zoom = m.offset.re := by ring
  rw [h]

/-- C9: with `changed = false` a draw call mutates nothing, and a second
draw call from the resulting state writes the same output buffer. -/
theorem draw_clean_idempotent (m : Mandelbrot) (screen : List ℕ)
    (h : m.changed = false) :
    (m.draw screen).1 = m ∧
    ((m.draw screen).1.draw screen).2 = (m.draw screen).2 := by
  have h1 : (m.draw screen).1 = m := by simp [Mandelbrot.draw, h]
  exact ⟨h1, by rw [h1]⟩

/-- Witness for C9 at the concrete clean state `tinyClean`. -/
theorem draw_clean_idempotent_witness :
    tinyClean.changed = false ∧
    ((tinyClean.draw [9, 9, 9, 9]).1 = tinyClean ∧
    ((tinyClean.draw [9, 9, 9, 9]).1.draw [9, 9, 9, 9]).2
      = (tinyClean.draw [9, 9, 9, 9]).2) :=
  ⟨rfl, draw_clean_idempotent tinyClean [9, 9, 9, 9] rfl⟩

/-- C10: `draw` never changes `max_iterations`, `zoom`, `offset`, `width`
or `height`; when `changed` is false at entry the state is unchanged
entirely (so `draw` mutates at most `cache`, `changed` and `resized`). -/
theorem draw_frame_conditions (m : Mandelbrot) (screen : List ℕ) :
    (m.draw screen).1.max_iterations = m.max_iterations ∧
    (m.draw screen).1.zoom = m.zoom ∧
    (m.draw screen).1.offset = m.offset ∧
    (m.draw screen).1.width = m.width ∧
    (m.draw screen).1.height = m.height ∧
    (m.changed = false → (m.draw screen).1 = m) := by
  by_cases h : m.changed
  · simp [Mandelbrot.draw, h, update_max_iterations, update_zoom, update_offset,
      update_width, update_height]
  · simp [Mandelbrot.draw, h]

/-- C5: after `resize(w2, h2)` the recompute step produces a cache of length
exactly `w2 * h2`, clears `resized`, and the result carries nothing over
from the previous cache: the state after resize-then-update does not depend
on the cache contents before the resize. -/
theorem resize_update_cache_fresh (m : Mandelbrot) (oldCache : List ℚ)
    (w2 h2 : ℕ) (hmul : w2 * h2 < 2 ^ 32) :
    ((m.resize w2 h2).update).cache.length = w2 * h2 ∧
    ((m.resize w2 h2).update).resized = false ∧
    (({ m with cache := oldCache } : Mandelbrot).resize w2 h2).update
      = (m.resize w2 h2).update := by
  refine ⟨?_, update_resized _, rfl⟩
  rw [update_cache]
  have hm' : w2 * h2 < 4294967296 := by
    calc w2 * h2 < 2 ^ 32 := hmul
      _ = 4294967296 := by norm_num
  simp [Mandelbrot.resize, u32mul, Nat.mod_eq_of_lt hm']

/-- Witness for C5 at a concrete state and a 2×3 resize. -/
theorem resize_update_cache_fresh_witness :
    2 * 3 < 2 ^ 32 ∧
    ((((Mandelbrot.new 1 1 1).resize 2 3).update).cache.length = 2 * 3 ∧
    (((Mandelbrot.new 1 1 1).resize 2 3).update).resized = false ∧
    (({ Mandelbrot.new 1 1 1 with cache := [5] } : Mandelbrot).resize 2 3).update
      = ((Mandelbrot.new 1 1 1).resize 2 3).update) :=
  ⟨by norm_num, resize_update_cache_fresh (Mandelbrot.new 1 1 1) [5] 2 3 (by norm_num)⟩

lemma mapM_eq_some_map {α β : Type} (f : α → Option β) (g : α → β) :
    ∀ l : List α, (∀ a ∈ l, f a = some (g a)) → l.mapM f = some (l.map g) := by
  intro l
  induction l with
  | nil => intro _; rfl
  | cons a t ih =>
    intro h
    rw [List.mapM_cons, h a (List.mem_cons_self a t),
      ih (fun b hb => h b (List.mem_cons_of_mem a hb))]
    rfl

/-- A rasterization iteration with the index in bounds produces the
greyscale RGBA chunk of the cached ratio. -/
lemma rasterizeChunk_eq (m : Mandelbrot) (i : ℕ) (hw : m.width ≠ 0)
    (hi : i < m.cache.length) :
    m.rasterizeChunk i = some [toByte (m.cache.getD i 0), toByte (m.cache.getD i 0),
      toByte (m.cache.getD i 0), 255] := by
  have hidx : i % m.width + i / m.width * m.width = i := Nat.mod_add_div' i m.width
  simp only [Mandelbrot.rasterizeChunk, hw, if_false, hidx,
    List.getElem?_eq_getElem hi, List.getD_eq_getElem m.cache 0 hi]

/-- With the cache sized to `width * height`, the whole rasterization loop
succeeds and yields the concatenation of the per-pixel RGBA chunks. -/
lemma rasterize_full (m : Mandelbrot) (hw : m.width ≠ 0)
    (hlen : m.cache.length = m.width * m.height) :
    m.rasterize (m.width * m.height)
      = some (((List.range (m.width * m.height)).map (fun i =>
          [toByte (m.cache.getD i 0), toByte (m.cache.getD i 0),
           toByte (m.cache.getD i 0), 255])).flatten) := by
  have hall : ∀ i ∈ List.range (m.width * m.height),
      m.rasterizeChunk i = some [toByte (m.cache.getD i 0), toByte (m.cache.getD i 0),
        toByte (m.cache.getD i 0), 255] := by
    intro i hi
    exact rasterizeChunk_eq m i hw (by rw [hlen]; exact List.mem_range.mp hi)
  unfold Mandelbrot.rasterize
  rw [mapM_eq_some_map _ _ _ hall]
  rfl

lemma update_cache_length (m : Mandelbrot) (hmul : m.width * m.height < 2 ^ 32) :
    m.update.cache.length = m.width * m.height := by
  rw [update_cache]
  have hm' : m.width * m.height < 4294967296 := by
    calc m.width * m.height < 2 ^ 32 := hmul
      _ = 4294967296 := by norm_num
  simp [u32mul, Nat.mod_eq_of_lt hm']

/-- The state `draw` rasterizes from: the cache sized to `width * height`
whether or not a recompute ran. -/
lemma draw_state_cache_length (m : Mandelbrot) (screen : List ℕ)
    (hmul : m.width * m.height < 2 ^ 32)
    (hcache : m.changed = false → m.cache.length = m.width * m.height) :
    (m.draw screen).1.cache.length = m.width * m.height := by
  by_cases h : m.changed
  · have : (m.draw screen).1 = m.update := by simp [Mandelbrot.draw, h]
    rw [this]
    exact update_cache_length m hmul
  · have hfalse : m.changed = false := by simpa using h
    have : (m.draw screen).1 = m := by simp [Mandelbrot.draw, hfalse]
    rw [this]
    exact hcache hfalse

/-- The output of `draw` under its caller contract, in closed form: the
per-pixel RGBA chunks of the post-recompute cache, concatenated. -/
lemma draw_output_eq (m : Mandelbrot) (screen : List ℕ)
    (hw : 0 < m.width) (hh : 0 < m.height)
    (hmul : m.width * m.height < 2 ^ 32)
    (hcache : m.changed = false → m.cache.length = m.width * m.height)
    (hs : screen.length = 4 * (m.width * m.height)) :
    (m.draw screen).2 = some (((List.range (m.width * m.height)).map (fun i =>
      [toByte ((m.draw screen).1.cache.getD (i % m.width + i / m.width * m.width) 0),
       toByte ((m.draw screen).1.cache.getD (i % m.width + i / m.width * m.width) 0),
       toByte ((m.draw screen).1.cache.getD (i % m.width + i / m.width * m.width) 0),
       255])).flatten) := by
  have hw1 : (m.draw screen).1.width = m.width := by
    by_cases h : m.changed <;> simp [Mandelbrot.draw, h, update_width]
  have hh1 : (m.draw screen).1.height = m.height := by
    by_cases h : m.changed <;> simp [Mandelbrot.draw, h, update_height]
  have hlen : (m.draw screen).1.cache.length
      = (m.draw screen).1.width * (m.draw screen).1.height := by
    rw [hw1, hh1]
    exact draw_state_cache_length m screen hmul hcache
  have hchunks : screen.length / 4 = m.width * m.height := by
    rw [hs]
    exact Nat.mul_div_cancel_left _ (by norm_num)
  have hsnd : (m.draw screen).2 = ((m.draw screen).1.rasterize (screen.length / 4)).map
      (fun bytes => bytes ++ screen.drop (4 * (screen.length / 4))) := rfl
  have hr := rasterize_full (m.draw screen).1 (by rw [hw1]; omega) hlen
  rw [hw1, hh1] at hr
  have hdrop : screen.drop (4 * (screen.length / 4)) = [] := by
    rw [hchunks, ← hs]
    exact List.drop_length screen
  rw [hsnd, hdrop, hchunks, hr, Option.map_some', List.append_nil]
  congr 1
  refine congrArg List.flatten (List.map_congr_left ?_)
  intro i _
  rw [Nat.mod_add_div' i m.width]

/-- C6: under the caller contract (`screen` of length `4 * width * height`,
positive dimensions), `draw` never goes out of bounds: every row-major cache
index `x + y * width` read during rasterization is below the cache length,
which equals `width * height` once pixels are addressed, and the call
produces an output (the embedding returns `none` exactly on a Rust panic). -/
theorem draw_no_out_of_bounds (m : Mandelbrot) (screen : List ℕ)
    (hw : 0 < m.width) (hh : 0 < m.height)
    (hmul : m.width * m.height < 2 ^ 32)
    (hcache : m.changed = false → m.cache.length = m.width * m.height)
    (hs : screen.length = 4 * (m.width * m.height)) :
    (m.draw screen).1.cache.length = m.width * m.height ∧
    (∀ i < m.width * m.height,
      i % m.width + i / m.width * m.width < (m.draw screen).1.cache.length) ∧
    ∃ out, (m.draw screen).2 = some out := by
  have hlen := draw_state_cache_length m screen hmul hcache
  refine ⟨hlen, ?_, ?_⟩
  · intro i hi
    rw [hlen, Nat.mod_add_div' i m.width]
    exact hi
  · exact ⟨_, draw_output_eq m screen hw hh hmul hcache hs⟩

/-- Witness for C6 at the initial 1×1 state (dirty, empty cache) and a
4-byte screen. -/
theorem draw_no_out_of_bounds_witness :
    (0 < (Mandelbrot.new 5 1 1).width ∧ 0 < (Mandelbrot.new 5 1 1).height ∧
     (Mandelbrot.new 5 1 1).width * (Mandelbrot.new 5 1 1).height < 2 ^ 32 ∧
     (([] : List ℕ).length + 4
        = 4 * ((Mandelbrot.new 5 1 1).width * (Mandelbrot.new 5 1 1).height))) ∧
    (((Mandelbrot.new 5 1 1).draw [0, 0, 0, 0]).1.cache.length
        = (Mandelbrot.new 5 1 1).width * (Mandelbrot.new 5 1 1).height ∧
    (∀ i < (Mandelbrot.new 5 1 1).width * (Mandelbrot.new 5 1 1).height,
      i % (Mandelbrot.new 5 1 1).width
        + i / (Mandelbrot.new 5 1 1).width * (Mandelbrot.new 5 1 1).width
        < ((Mandelbrot.new 5 1 1).draw [0, 0, 0, 0]).1.cache.length) ∧
    ∃ out, ((Mandelbrot.new 5 1 1).draw [0, 0, 0, 0]).2 = some out) :=
  ⟨⟨by norm_num [Mandelbrot.new], by norm_num [Mandelbrot.new],
    by norm_num [Mandelbrot.new], by norm_num [Mandelbrot.new]⟩,
   draw_no_out_of_bounds (Mandelbrot.new 5 1 1) [0, 0, 0, 0]
     (by norm_num [Mandelbrot.new]) (by norm_num [Mandelbrot.new])
     (by norm_num [Mandelbrot.new])
     (by intro h; simp [Mandelbrot.new] at h)
     (by norm_num [Mandelbrot.new])⟩

/-- C3 counterexample: at the cached ratio `r = 1/100` (the escape-time
ratio of the point `2 + 0i` at bound 100), the draw call writes the channel
value `2` — the source's `(r * 255.0) as u8` truncates `2.55` — while the
claim's round-to-nearest of `r * 255` is `3`. -/
theorem draw_round_counterexample :
    (tinyClean.draw [0, 0, 0, 0]).2 = some [2, 2, 2, 255] ∧
    round ((1 / 100 : ℚ) * 255) = 3 ∧
    iterate_mandelbrot_point ⟨2, 0⟩ 100 = 1 / 100 := by
  refine ⟨?_, ?_, ?_⟩
  · norm_num [Mandelbrot.draw, tinyClean, Mandelbrot.rasterize, Mandelbrot.rasterizeChunk,
      List.range_succ, List.mapM.loop, toByte, Int.toNat]
  · rw [round_eq]; norm_num
  · have hone : iterCount ⟨2, 0⟩ 100 = 1 := by
      show iterCountAux ⟨2, 0⟩ (99 + 1) ⟨0, 0⟩ = 1
      rw [iterCountAux]
      norm_num [normSq, mandelStep, cadd, cmul]
      show iterCountAux ⟨2, 0⟩ (98 + 1) ⟨2, 0⟩ = 0
      rw [iterCountAux]
      norm_num [normSq]
    rw [iterate_mandelbrot_point, hone]
    norm_num

/-- C3 (amended): on every draw call each cached ratio `r` (of the cache in
effect after any recompute) is converted into the RGBA chunk
`(trunc(r*255), trunc(r*255), trunc(r*255), 255)`: the saturating `as u8`
cast truncates `r * 255` toward zero — it does not round to nearest — and
the alpha channel is the constant 255. -/
theorem draw_rasterizes_truncated_grey (m : Mandelbrot) (screen : List ℕ)
    (hw : 0 < m.width) (hh : 0 < m.height)
    (hmul : m.width * m.height < 2 ^ 32)
    (hcache : m.changed = false → m.cache.length = m.width * m.height)
    (hs : screen.length = 4 * (m.width * m.height)) :
    (m.draw screen).2 = some (((List.range (m.width * m.height)).map (fun i =>
      [toByte ((m.draw screen).1.cache.getD (i % m.width + i / m.width * m.width) 0),
       toByte ((m.draw screen).1.cache.getD (i % m.width + i / m.width * m.width) 0),
       toByte ((m.draw screen).1.cache.getD (i % m.width + i / m.width * m.width) 0),
       255])).flatten) :=
  draw_output_eq m screen hw hh hmul hcache hs

/-- Witness for the amended C3 at the concrete state `tinyClean`. -/
theorem draw_rasterizes_truncated_grey_witness :
    (0 < tinyClean.width ∧ 0 < tinyClean.height ∧
     tinyClean.width * tinyClean.height < 2 ^ 32 ∧
     ([] : List ℕ).length + 4 = 4 * (tinyClean.width * tinyClean.height)) ∧
    (tinyClean.draw [7, 7, 7, 7]).2
      = some (((List.range (tinyClean.width * tinyClean.height)).map (fun i =>
        [toByte ((tinyClean.draw [7, 7, 7, 7]).1.cache.getD
            (i % tinyClean.width + i / tinyClean.width * tinyClean.width) 0),
         toByte ((tinyClean.draw [7, 7, 7, 7]).1.cache.getD
            (i % tinyClean.width + i / tinyClean.width * tinyClean.width) 0),
         toByte ((tinyClean.draw [7, 7, 7, 7]).1.cache.getD
            (i % tinyClean.width + i / tinyClean.width * tinyClean.width) 0),
         255])).flatten) :=
  ⟨⟨by norm_num [tinyClean], by norm_num [tinyClean],
    by norm_num [tinyClean], by norm_num [tinyClean]⟩,
   draw_rasterizes_truncated_grey tinyClean [7, 7, 7, 7]
     (by norm_num [tinyClean]) (by norm_num [tinyClean]) (by norm_num [tinyClean])
     (by intro _; norm_num [tinyClean]) (by norm_num [tinyClean])⟩

end Mandel
